import Mathlib

/-!
Shallow embedding of the `mdtogo` documentation extractor (main.go) and
proofs about its tag-extraction parser, content normalizer, emitter and
command-line handling.  Strings are modelled as `List Char`; every Go
function used by the properties below is translated into a Lean
definition of the same name.
-/

namespace Mdtogo

/-- The backquote character, written via its code point. -/
def backquote : Char := Char.ofNat 96

/-- Replacement written for each backquote by the normalizer: the Go
source inserts "` + \"`\" + `" (close the raw string, add an escaped
backquote, reopen the raw string). -/
def escSeq : List Char := ("` + \"`\" + `").toList

/-- Code-fence delimiter prefix: three backquotes, as in
`strings.HasPrefix(line, "```")`. -/
def fenceMark : List Char := ("```").toList

/-- Go `bufio.dropCR`: drop a terminal carriage return from a line. -/
def dropCR (l : List Char) : List Char :=
  if l.getLast? = some '\r' then l.dropLast else l

/-- Worker for `bufio.Scanner` with `bufio.ScanLines`: split at each
newline, dropping a `\r` that precedes the newline (or ends the data);
`acc` holds the current partial line, reversed.  An empty remainder at
end of data produces no final token, as in `ScanLines`. -/
def scanLinesAcc (acc : List Char) : List Char → List (List Char)
  | [] => if acc = [] then [] else [dropCR acc.reverse]
  | c :: rest =>
    if c = '\n' then dropCR acc.reverse :: scanLinesAcc [] rest
    else scanLinesAcc (c :: acc) rest

/-- The sequence of lines the scanner loop in `cleanUpContent` sees. -/
def scanLines (s : List Char) : List (List Char) :=
  scanLinesAcc [] s

/-- Trim all leading and trailing characters satisfying `p`
(Go `strings.Trim` where the cutset is described by `p`). -/
def trimChars (p : Char → Bool) (s : List Char) : List Char :=
  (((s.dropWhile p).reverse.dropWhile p)).reverse

/-- The cutset predicate of `strings.Trim(text, "\n")`. -/
def isNLChar (c : Char) : Bool := c = '\n'

/-- Go `strings.Trim(text, "\n")`. -/
def trimNL (s : List Char) : List Char :=
  trimChars isNLChar s

/-- Go `unicode.IsSpace`, i.e. the Unicode White_Space property
(what `strings.TrimSpace` trims). -/
def goIsSpace (c : Char) : Bool :=
  c = ' ' || c = '\t' || c = '\n' || c = '\x0B' || c = '\x0C' || c = '\r' ||
  c.toNat = 0x85 || c.toNat = 0xA0 || c.toNat = 0x1680 ||
  (0x2000 ≤ c.toNat && c.toNat ≤ 0x200A) ||
  c.toNat = 0x2028 || c.toNat = 0x2029 || c.toNat = 0x202F ||
  c.toNat = 0x205F || c.toNat = 0x3000

/-- Go `strings.TrimSpace`. -/
def trimSpace (s : List Char) : List Char :=
  trimChars goIsSpace s

/-- Go `strings.ReplaceAll(line, "`", "` + \"`\" + `")`: the pattern is
the single backquote character, so each backquote is replaced by
`escSeq`, scanning left to right and never rescanning a replacement. -/
def escapeLine : List Char → List Char
  | [] => []
  | c :: rest =>
    if c = backquote then escSeq ++ escapeLine rest
    else c :: escapeLine rest

/-- The line loop of `cleanUpContent`: a line starting with three
backquotes toggles `indent` and is dropped; otherwise the line is
prefixed by two spaces while `indent` is set, then backquote-escaped. -/
def cleanLines : Bool → List (List Char) → List (List Char)
  | _, [] => []
  | indent, l :: ls =>
    if fenceMark.isPrefixOf l then cleanLines (!indent) ls
    else escapeLine (if indent then ' ' :: ' ' :: l else l) :: cleanLines indent ls

/-- Go `strings.Join(lines, "\n")`. -/
def joinLines : List (List Char) → List Char
  | [] => []
  | [l] => l
  | l :: l' :: ls => l ++ '\n' :: joinLines (l' :: ls)

/-- Go `cleanUpContent`: trim outer newlines, split into lines, process
fences/indentation/backquote escaping, rejoin, and wrap the result in
one leading and one trailing newline (`fmt.Sprintf("\n%s\n", ...)`). -/
def cleanUpContent (text : List Char) : List Char :=
  '\n' :: (joinLines (cleanLines false (scanLines (trimNL text))) ++ ['\n'])

/-! ### The tag regexes

`mdtogoTag = <!--mdtogo:(Short|Long|Examples)-->([\s\S]*?)<!--mdtogo-->` and
`mdtogoInternalTag = <!--mdtogo:(Short|Long|Examples)\s+?([\s\S]*?)-->`,
with `FindAllStringSubmatch`: leftmost successive non-overlapping matches,
non-greedy content (a region ends at the nearest closing marker). -/

/-- Common prefix of both tag forms. -/
def mdtogoPre : List Char := ("<!--mdtogo:").toList

/-- The three capture alternatives of the field group, in the order the
regex alternation lists them. -/
def fieldNames : List (List Char) :=
  [("Short").toList, ("Long").toList, ("Examples").toList]

/-- Opening marker of the visible form for field `f`. -/
def visOpen (f : List Char) : List Char := mdtogoPre ++ f ++ ("-->").toList

/-- Opening of the hidden form for field `f` (must be followed by at
least one regex whitespace character). -/
def hidOpen (f : List Char) : List Char := mdtogoPre ++ f

/-- Closing marker of the visible form. -/
def closeTag : List Char := ("<!--mdtogo-->").toList

/-- Closing sequence of the hidden form. -/
def arrow : List Char := ("-->").toList

/-- Index of the first occurrence of `pat` in `s`, if any. -/
def findIdx? (pat : List Char) : List Char → Option Nat
  | [] => if pat.isPrefixOf [] then some 0 else none
  | s@(_ :: rest) =>
    if pat.isPrefixOf s then some 0 else (findIdx? pat rest).map (· + 1)

/-- RE2 character class `\s` (ASCII whitespace without vertical tab). -/
def regexSpace (c : Char) : Bool :=
  c = '\t' || c = '\n' || c = '\x0C' || c = '\r' || c = ' '

/-- `mdtogoTag.FindAllStringSubmatch(value, -1)` as the list of pairs
(captured field name, captured content): at each position, if a visible
opening marker starts there and a closing marker occurs later, the
non-greedy content runs to the nearest closing marker and scanning
resumes after it; otherwise scanning moves one character right. -/
def scanVisible (s : List Char) : List (List Char × List Char) :=
  match h0 : s with
  | [] => []
  | _ :: rest =>
    match fieldNames.find? (fun f => (visOpen f).isPrefixOf s) with
    | none => scanVisible rest
    | some f =>
      let body := s.drop (visOpen f).length
      match findIdx? closeTag body with
      | none => scanVisible rest
      | some j => (f, body.take j) :: scanVisible (body.drop (j + closeTag.length))
termination_by s.length
decreasing_by
  all_goals subst h0
  all_goals simp only [List.length_drop, List.length_cons]
  all_goals try omega
  have h2 : closeTag.length = 13 := rfl
  omega

/-- `mdtogoInternalTag.FindAllStringSubmatch(value, -1)`: a match needs
`<!--mdtogo:` plus a field name, one regex whitespace character (the
lazy `\s+?` never consumes more, since the lazy content group can absorb
any further character), then content up to the nearest `-->`. -/
def scanHidden (s : List Char) : List (List Char × List Char) :=
  match h0 : s with
  | [] => []
  | _ :: rest =>
    match fieldNames.find? (fun f => (hidOpen f).isPrefixOf s) with
    | none => scanHidden rest
    | some f =>
      let body := s.drop (hidOpen f).length
      match body.head? with
      | none => scanHidden rest
      | some a =>
        if regexSpace a then
          match findIdx? arrow body.tail with
          | none => scanHidden rest
          | some j =>
            (f, body.tail.take j) :: scanHidden (body.tail.drop (j + arrow.length))
        else scanHidden rest
termination_by s.length
decreasing_by
  all_goals subst h0
  all_goals simp only [List.length_drop, List.length_cons, List.length_tail]
  all_goals omega

/-- The record built per input file (Go struct `doc`). -/
structure Doc where
  Name : List Char
  Short : List Char
  Long : List Char
  Examples : List Char
deriving DecidableEq

/-- The zero value of `doc`. -/
def emptyDoc : Doc := ⟨[], [], [], []⟩

/-- One iteration of the loop over matches in `parse`: switch on the
captured field name and overwrite the corresponding field. -/
def applyMatch (d : Doc) (m : List Char × List Char) : Doc :=
  if m.1 = ("Short").toList then { d with Short := trimSpace m.2 }
  else if m.1 = ("Long").toList then { d with Long := cleanUpContent m.2 }
  else if m.1 = ("Examples").toList then { d with Examples := cleanUpContent m.2 }
  else d

/-- Go `parse` on the file contents `value`.  The `Name` field is the
title-cased, dash-stripped parent-directory name computed from `path`
by pure `filepath` and `strings` calls; no claim depends on that
computation, so the already-derived name is taken as the argument
`name` and assigned after the match loop exactly as in the source. -/
def parse (name : List Char) (value : List Char) : Doc :=
  let ms := scanVisible value ++ scanHidden value
  { ms.foldl applyMatch emptyDoc with Name := name }

/-- Field selector used to state properties uniformly over the three
field names. -/
def fieldGet (d : Doc) (f : List Char) : List Char :=
  if f = ("Short").toList then d.Short
  else if f = ("Long").toList then d.Long
  else d.Examples

/-- One `var <Name><Suffix> = `...`` declaration emitted by
`doc.String`. -/
def varDecl (name suffix val : List Char) : List Char :=
  ("var ").toList ++ name ++ suffix ++ (" = ").toList ++
    backquote :: (val ++ [backquote])

/-- The `parts` slice built by `doc.String`: one declaration per
non-empty field. -/
def docParts (d : Doc) : List (List Char) :=
  (if d.Short ≠ [] then [varDecl d.Name ("Short").toList d.Short] else []) ++
  (if d.Long ≠ [] then [varDecl d.Name ("Long").toList d.Long] else []) ++
  (if d.Examples ≠ [] then [varDecl d.Name ("Examples").toList d.Examples] else [])

/-- Go `doc.String`: the declarations joined by newlines plus a final
newline. -/
def docString (d : Doc) : List Char :=
  joinLines (docParts d) ++ ['\n']

/-- Whether `pat` occurs contiguously inside `s`. -/
def occursIn (pat s : List Char) : Bool :=
  (findIdx? pat s).isSome

/-! ### Command line and file system model (`main`) -/

/-- Go `strings.ReplaceAll` for list-of-char strings (non-overlapping,
left to right, replacements are not rescanned).  An empty pattern is
returned unchanged; `main` only uses the non-empty pattern
`"--license="`. -/
def replaceAll (pat repl : List Char) (s : List Char) : List Char :=
  match pat, s with
  | [], _ => s
  | _ :: _, [] => []
  | p :: pt, c :: rest =>
    if (p :: pt).isPrefixOf (c :: rest) then
      repl ++ replaceAll (p :: pt) repl (rest.drop pt.length)
    else c :: replaceAll (p :: pt) repl rest
termination_by s.length
decreasing_by
  · simp only [List.length_drop, List.length_cons]
    omega
  · simp only [List.length_cons]
    omega

/-- The two package-level flag variables of `main.go`. -/
structure Flags where
  recursive : Bool
  licenseFile : List Char
deriving DecidableEq

/-- The flag-scanning loop at the top of `main`. -/
def scanFlags (args : List (List Char)) : Flags :=
  args.foldl
    (fun st a =>
      let st1 := if a = ("--recursive=true").toList then { st with recursive := true } else st
      if ("--license=").toList.isPrefixOf a then
        { st1 with licenseFile := replaceAll (("--license=").toList) [] a }
      else st1)
    ⟨false, []⟩

/-- Outcome of the argument-handling prefix of `main`: either the usage
message is printed to stderr and the process exits with code 1 before
any file is read or written, or execution proceeds with the given
source and destination arguments and flag values. -/
inductive ArgOutcome where
  | usage : ArgOutcome
  | run (source dest : List Char) (fl : Flags) : ArgOutcome
deriving DecidableEq

/-- Lines 54-68 of `main.go`: scan flags from `os.Args`, then exit with
usage when `len(os.Args) < 3`, else take `os.Args[1]` and `os.Args[2]`
as source and destination. -/
def mainArgs (args : List (List Char)) : ArgOutcome :=
  let fl := scanFlags args
  if h : args.length < 3 then ArgOutcome.usage
  else ArgOutcome.run (args.get ⟨1, by omega⟩) (args.get ⟨2, by omega⟩) fl

/-- The non-flag arguments after the program name: what the spec calls
the positional arguments `SOURCE_DIR` and `DEST_DIR`. -/
def positionalArgs (args : List (List Char)) : List (List Char) :=
  (args.drop 1).filter (fun a => !(("--").toList.isPrefixOf a))

/-- A file-system path, as a list of name segments relative to the
working directory. -/
abbrev FsPath := List (List Char)

/-- File-system state: the sets of existing directories and files. -/
structure Fs where
  dirs : List FsPath
  files : List FsPath
deriving DecidableEq

/-- Parent directory of a path. -/
def parentDir (p : FsPath) : FsPath := p.dropLast

/-- `os.Stat(dest)` succeeds when something exists at the path. -/
def statOk (fs : Fs) (p : FsPath) : Bool :=
  p ∈ fs.dirs || p ∈ fs.files

/-- `os.Mkdir`: creates a single directory level; fails when the parent
is missing or the path already exists.  Returns the new state and
whether the call succeeded. -/
def mkdirFs (fs : Fs) (p : FsPath) : Fs × Bool :=
  if parentDir p ∈ fs.dirs ∧ p ∉ fs.dirs ∧ p ∉ fs.files then
    ({ fs with dirs := p :: fs.dirs }, true)
  else (fs, false)

/-- `ioutil.WriteFile`: creates or overwrites a file; fails when the
containing directory is missing or a directory occupies the path. -/
def writeFileFs (fs : Fs) (p : FsPath) : Fs × Bool :=
  if parentDir p ∈ fs.dirs ∧ p ∉ fs.dirs then
    ({ fs with files := if p ∈ fs.files then fs.files else p :: fs.files }, true)
  else (fs, false)

/-- Lines 113-122 of `main.go`: if `os.Stat(dest)` fails, call
`os.Mkdir(dest, 0700)` discarding its error, then write
`dest/docs.go`; a failing write prints the error and exits 1, a
successful one ends the run with exit 0.  The returned boolean is the
write's success. -/
def writePhase (fs : Fs) (dest : FsPath) : Fs × Bool :=
  let fs1 := if statOk fs dest then fs else (mkdirFs fs dest).1
  writeFileFs fs1 (dest ++ [("docs.go").toList])

/-- Whether a text has no carriage return immediately before a newline
nor as its final character, i.e. no line of it ends in `\r`. -/
def crClean : List Char → Bool
  | [] => true
  | [c] => !(c = '\r')
  | c :: c' :: rest =>
    if c = '\r' ∧ c' = '\n' then false else crClean (c' :: rest)

/-- Texts in which every backquote is part of an inserted escape
sequence: built from non-backquote characters and whole `escSeq`
blocks. -/
inductive EscapedSafe : List Char → Prop
  | nil : EscapedSafe []
  | cons (c : Char) (s : List Char) : c ≠ backquote → EscapedSafe s →
      EscapedSafe (c :: s)
  | esc (s : List Char) : EscapedSafe s → EscapedSafe (escSeq ++ s)

/-! ### Concrete inputs used by witnesses and counterexamples -/

/-- Concrete file text with one visible `Long` region in plain context. -/
def c1text : List Char :=
  ("intro ").toList ++
    (visOpen (("Long").toList) ++
      ((" body ").toList ++ (closeTag ++ ("outro").toList)))

/-- Concrete file text with two visible `Long` regions. -/
def c4visText : List Char :=
  ("A").toList ++
    (visOpen (("Long").toList) ++
      (("one").toList ++ (closeTag ++
        (("M").toList ++
          (visOpen (("Long").toList) ++
            (("two").toList ++ (closeTag ++ ("B").toList)))))))

/-- Concrete file text with a hidden `Long` region followed by a visible
`Long` region. -/
def c4hidText : List Char :=
  ("A").toList ++
    (hidOpen (("Long").toList) ++
      (' ' :: (("one").toList ++ (arrow ++
        (("M").toList ++
          (visOpen (("Long").toList) ++
            (("two").toList ++ (closeTag ++ ("B").toList))))))))

/-- Concrete normalizer input with one fence pair. -/
def c2text : List Char := ("a\n```\nx\n```\nb").toList

/-! ### Prefix and substring search lemmas -/

theorem lpre_append_self (l t : List Char) : l.isPrefixOf (l ++ t) = true := by
  simp [List.isPrefixOf_iff_prefix]

theorem lpre_cancel (x u v : List Char) :
    (x ++ u).isPrefixOf (x ++ v) = u.isPrefixOf v := by
  induction x with
  | nil => rfl
  | cons c x ih => simpa [List.isPrefixOf] using ih

theorem lpre_take (n : Nat) (p y : List Char) (h : p.isPrefixOf y = true) :
    (p.take n).isPrefixOf (y.take n) = true := by
  induction n generalizing p y with
  | zero => simp [List.isPrefixOf]
  | succ n ih =>
    cases p with
    | nil => simp [List.isPrefixOf]
    | cons a p =>
      cases y with
      | nil => simp [List.isPrefixOf] at h
      | cons b y =>
        simp only [List.isPrefixOf, Bool.and_eq_true] at h
        simpa [List.isPrefixOf, h.1] using ih p y h.2

theorem not_lpre_append (p x rest : List Char)
    (h : (p.take x.length).isPrefixOf x = false) :
    p.isPrefixOf (x ++ rest) = false := by
  by_contra hc
  rw [Bool.not_eq_false] at hc
  have := lpre_take x.length p (x ++ rest) hc
  rw [List.take_left] at this
  rw [this] at h
  exact Bool.true_eq_false.mp h

theorem lpre_cons_false (p0 : Char) (pt : List Char) (c : Char) (t : List Char)
    (h : p0 ≠ c) : (p0 :: pt).isPrefixOf (c :: t) = false := by
  simp [List.isPrefixOf, h]

theorem findIdx?_nil (pat : List Char) :
    findIdx? pat [] = if pat.isPrefixOf [] then some 0 else none := rfl

theorem findIdx?_cons (pat : List Char) (c : Char) (rest : List Char) :
    findIdx? pat (c :: rest) =
      if pat.isPrefixOf (c :: rest) then some 0
      else (findIdx? pat rest).map (· + 1) := rfl

/-- `findIdx?` finds the junction occurrence when no earlier position can
start a match because the pattern's first character does not occur. -/
theorem findIdx?_junction (p0 : Char) (pt C b : List Char)
    (hC : ∀ c ∈ C, c ≠ p0) :
    findIdx? (p0 :: pt) (C ++ ((p0 :: pt) ++ b)) = some C.length := by
  induction C with
  | nil => simp [findIdx?, lpre_append_self]
  | cons c C ih =>
    have hc : p0 ≠ c := fun hcc => (hC c (by simp) (hcc ▸ rfl)).elim
    have hrec := ih (fun a ha => hC a (by simp [ha]))
    have hp : (p0 :: pt).isPrefixOf (c :: (C ++ ((p0 :: pt) ++ b))) = false :=
      lpre_cons_false p0 pt c _ hc
    simp only [List.cons_append] at hp hrec ⊢
    rw [findIdx?_cons, hp]
    simp [hrec]

theorem findIdx?_some_prefix (pat s : List Char) (i : Nat)
    (h : findIdx? pat s = some i) : pat.isPrefixOf (s.drop i) = true := by
  induction s generalizing i with
  | nil =>
    rw [findIdx?_nil] at h
    split at h
    next hp =>
      cases h
      simpa using hp
    next => cases h
  | cons c rest ih =>
    rw [findIdx?_cons] at h
    split at h
    next hp =>
      cases h
      simpa using hp
    next hp =>
      cases hi : findIdx? pat rest with
      | none => rw [hi] at h; cases h
      | some i' =>
        rw [hi] at h
        simp only [Option.map_some', Option.some.injEq] at h
        cases h
        simpa using ih i' hi

theorem occursIn_subset (pat s : List Char) (h : occursIn pat s = true) :
    ∀ c ∈ pat, c ∈ s := by
  intro c hc
  unfold occursIn at h
  cases hi : findIdx? pat s with
  | none => rw [hi] at h; cases h
  | some i =>
    have hp := findIdx?_some_prefix pat s i hi
    rw [List.isPrefixOf_iff_prefix] at hp
    have hd : c ∈ s.drop i := hp.subset hc
    exact List.mem_of_mem_drop hd


/-! ### Unfolding lemmas for the two regex scanners -/

theorem mdtogoPre_cons : mdtogoPre = '<' :: ("!--mdtogo:").toList := rfl

theorem visOpen_cons (f : List Char) :
    visOpen f = '<' :: (("!--mdtogo:").toList ++ (f ++ ("-->").toList)) := rfl

theorem hidOpen_cons (f : List Char) :
    hidOpen f = '<' :: (("!--mdtogo:").toList ++ f) := rfl

theorem closeTag_cons : closeTag = '<' :: ("!--mdtogo-->").toList := rfl

theorem scanVisible_nil : scanVisible [] = [] := by
  rw [scanVisible]

theorem scanVisible_cons (c : Char) (rest : List Char) :
    scanVisible (c :: rest) =
      match fieldNames.find? (fun f => (visOpen f).isPrefixOf (c :: rest)) with
      | none => scanVisible rest
      | some f =>
        match findIdx? closeTag ((c :: rest).drop (visOpen f).length) with
        | none => scanVisible rest
        | some j =>
          (f, ((c :: rest).drop (visOpen f).length).take j) ::
            scanVisible (((c :: rest).drop (visOpen f).length).drop (j + closeTag.length)) := by
  rw [scanVisible]

theorem scanHidden_nil : scanHidden [] = [] := by
  rw [scanHidden]

theorem scanHidden_cons (c : Char) (rest : List Char) :
    scanHidden (c :: rest) =
      match fieldNames.find? (fun f => (hidOpen f).isPrefixOf (c :: rest)) with
      | none => scanHidden rest
      | some f =>
        match ((c :: rest).drop (hidOpen f).length).head? with
        | none => scanHidden rest
        | some a =>
          if regexSpace a then
            match findIdx? arrow ((c :: rest).drop (hidOpen f).length).tail with
            | none => scanHidden rest
            | some j =>
              (f, ((c :: rest).drop (hidOpen f).length).tail.take j) ::
                scanHidden (((c :: rest).drop (hidOpen f).length).tail.drop (j + arrow.length))
          else scanHidden rest := by
  rw [scanHidden]

theorem scanVisible_skip (c : Char) (rest : List Char) (hc : c ≠ '<') :
    scanVisible (c :: rest) = scanVisible rest := by
  have hnone : fieldNames.find? (fun f => (visOpen f).isPrefixOf (c :: rest)) = none := by
    rw [List.find?_eq_none]
    intro f hf
    rw [visOpen_cons f, lpre_cons_false '<' _ c rest (Ne.symm hc)]
    simp
  rw [scanVisible_cons, hnone]

theorem scanHidden_skip (c : Char) (rest : List Char) (hc : c ≠ '<') :
    scanHidden (c :: rest) = scanHidden rest := by
  have hnone : fieldNames.find? (fun f => (hidOpen f).isPrefixOf (c :: rest)) = none := by
    rw [List.find?_eq_none]
    intro f hf
    rw [hidOpen_cons f, lpre_cons_false '<' _ c rest (Ne.symm hc)]
    simp
  rw [scanHidden_cons, hnone]

theorem scanVisible_skip_append (x s : List Char) (hx : ∀ c ∈ x, c ≠ '<') :
    scanVisible (x ++ s) = scanVisible s := by
  induction x with
  | nil => rfl
  | cons c x ih =>
    rw [List.cons_append, scanVisible_skip c _ (hx c (by simp)),
      ih (fun a ha => hx a (by simp [ha]))]

theorem scanHidden_skip_append (x s : List Char) (hx : ∀ c ∈ x, c ≠ '<') :
    scanHidden (x ++ s) = scanHidden s := by
  induction x with
  | nil => rfl
  | cons c x ih =>
    rw [List.cons_append, scanHidden_skip c _ (hx c (by simp)),
      ih (fun a ha => hx a (by simp [ha]))]

theorem scanVisible_of_no_lt (s : List Char) (hs : ∀ c ∈ s, c ≠ '<') :
    scanVisible s = [] := by
  have h := scanVisible_skip_append s [] hs
  rw [List.append_nil] at h
  rw [h, scanVisible_nil]

theorem scanHidden_of_no_lt (s : List Char) (hs : ∀ c ∈ s, c ≠ '<') :
    scanHidden s = [] := by
  have h := scanHidden_skip_append s [] hs
  rw [List.append_nil] at h
  rw [h, scanHidden_nil]

/-- At the start of a visible opening marker the visible-form search
captures exactly that field. -/
theorem find?_visOpen (f R : List Char) (hf : f ∈ fieldNames) :
    fieldNames.find? (fun g => (visOpen g).isPrefixOf (visOpen f ++ R)) = some f := by
  have hf' : f = ("Short").toList ∨ f = ("Long").toList ∨ f = ("Examples").toList := by
    simpa [fieldNames] using hf
  rcases hf' with h | h | h
  · subst h
    have h1 : (visOpen (("Short").toList)).isPrefixOf
        (visOpen (("Short").toList) ++ R) = true := lpre_append_self _ R
    simp only [fieldNames, List.find?, h1]
  · subst h
    have h1 : (visOpen (("Short").toList)).isPrefixOf
        (visOpen (("Long").toList) ++ R) = false := not_lpre_append _ _ R (by decide)
    have h2 : (visOpen (("Long").toList)).isPrefixOf
        (visOpen (("Long").toList) ++ R) = true := lpre_append_self _ R
    simp only [fieldNames, List.find?, h1, h2]
  · subst h
    have h1 : (visOpen (("Short").toList)).isPrefixOf
        (visOpen (("Examples").toList) ++ R) = false := not_lpre_append _ _ R (by decide)
    have h2 : (visOpen (("Long").toList)).isPrefixOf
        (visOpen (("Examples").toList) ++ R) = false := not_lpre_append _ _ R (by decide)
    have h3 : (visOpen (("Examples").toList)).isPrefixOf
        (visOpen (("Examples").toList) ++ R) = true := lpre_append_self _ R
    simp only [fieldNames, List.find?, h1, h2, h3]


theorem arrow_cons : arrow = '-' :: ("->").toList := rfl

theorem visOpen_hid (f : List Char) : visOpen f = hidOpen f ++ arrow := by
  simp [visOpen, hidOpen, arrow, List.append_assoc]

theorem fieldNames_mem (f : List Char) (hf : f ∈ fieldNames) :
    f = ("Short").toList ∨ f = ("Long").toList ∨ f = ("Examples").toList := by
  simpa [fieldNames] using hf

theorem fieldNames_no_lt (f : List Char) (hf : f ∈ fieldNames) :
    ∀ c ∈ f, c ≠ '<' := by
  rcases fieldNames_mem f hf with h | h | h
  all_goals subst h
  all_goals decide

theorem regexSpace_ne (c : Char) (hc : regexSpace c = true) :
    c ≠ '-' ∧ c ≠ '<' := by
  constructor
  · intro h
    subst h
    exact absurd hc (by decide)
  · intro h
    subst h
    exact absurd hc (by decide)

theorem scanVisible_eq_of_ne_nil (s : List Char) (hs : s ≠ []) :
    scanVisible s =
      match fieldNames.find? (fun f => (visOpen f).isPrefixOf s) with
      | none => scanVisible s.tail
      | some f =>
        match findIdx? closeTag (s.drop (visOpen f).length) with
        | none => scanVisible s.tail
        | some j =>
          (f, (s.drop (visOpen f).length).take j) ::
            scanVisible ((s.drop (visOpen f).length).drop (j + closeTag.length)) := by
  cases s with
  | nil => exact absurd rfl hs
  | cons c rest =>
    rw [scanVisible_cons]
    simp only [List.tail_cons]

theorem scanHidden_eq_of_ne_nil (s : List Char) (hs : s ≠ []) :
    scanHidden s =
      match fieldNames.find? (fun f => (hidOpen f).isPrefixOf s) with
      | none => scanHidden s.tail
      | some f =>
        match ((s.drop (hidOpen f).length)).head? with
        | none => scanHidden s.tail
        | some a =>
          if regexSpace a then
            match findIdx? arrow (s.drop (hidOpen f).length).tail with
            | none => scanHidden s.tail
            | some j =>
              (f, (s.drop (hidOpen f).length).tail.take j) ::
                scanHidden ((s.drop (hidOpen f).length).tail.drop (j + arrow.length))
          else scanHidden s.tail := by
  cases s with
  | nil => exact absurd rfl hs
  | cons c rest =>
    rw [scanHidden_cons]
    simp only [List.tail_cons]

theorem findIdx?_closeTag (C b : List Char) (hC : ∀ c ∈ C, c ≠ '<') :
    findIdx? closeTag (C ++ (closeTag ++ b)) = some C.length := by
  rw [closeTag_cons]
  exact findIdx?_junction '<' _ C b hC

theorem findIdx?_arrow (C b : List Char) (hC : ∀ c ∈ C, c ≠ '-') :
    findIdx? arrow (C ++ (arrow ++ b)) = some C.length := by
  rw [arrow_cons]
  exact findIdx?_junction '-' _ C b hC

/-- The visible-form scanner at a well-formed visible region: it captures
the field and content and resumes after the closing marker. -/
theorem scanVisible_at_open (f C b : List Char) (hf : f ∈ fieldNames)
    (hC : ∀ c ∈ C, c ≠ '<') :
    scanVisible (visOpen f ++ (C ++ (closeTag ++ b))) = (f, C) :: scanVisible b := by
  have hs : visOpen f ++ (C ++ (closeTag ++ b)) ≠ [] := by
    rw [visOpen_cons f]
    simp
  rw [scanVisible_eq_of_ne_nil _ hs, find?_visOpen f _ hf]
  simp only [List.drop_left]
  rw [findIdx?_closeTag C b hC]
  simp only [List.take_left]
  have hd : (C ++ (closeTag ++ b)).drop (C.length + closeTag.length) = b := by
    rw [← List.append_assoc, ← List.length_append, List.drop_left]
  rw [hd]


/-- At the start of a visible opening marker, the hidden-form search also
matches the same field name (the hidden opening is a prefix of the
visible one); the whitespace test after it then fails. -/
theorem find?_hidOpen_vis (f R : List Char) (hf : f ∈ fieldNames) :
    fieldNames.find? (fun g => (hidOpen g).isPrefixOf (visOpen f ++ R)) = some f := by
  have key : ∀ X : List Char, (hidOpen f).isPrefixOf (visOpen f ++ X) = true := by
    intro X
    rw [visOpen_hid, List.append_assoc]
    exact lpre_append_self _ _
  rcases fieldNames_mem f hf with h | h | h
  · subst h
    have h1 : (hidOpen (("Short").toList)).isPrefixOf
        (visOpen (("Short").toList) ++ R) = true := key R
    simp only [fieldNames, List.find?, h1]
  · subst h
    have h1 : (hidOpen (("Short").toList)).isPrefixOf
        (visOpen (("Long").toList) ++ R) = false := not_lpre_append _ _ R (by decide)
    have h2 : (hidOpen (("Long").toList)).isPrefixOf
        (visOpen (("Long").toList) ++ R) = true := key R
    simp only [fieldNames, List.find?, h1, h2]
  · subst h
    have h1 : (hidOpen (("Short").toList)).isPrefixOf
        (visOpen (("Examples").toList) ++ R) = false := not_lpre_append _ _ R (by decide)
    have h2 : (hidOpen (("Long").toList)).isPrefixOf
        (visOpen (("Examples").toList) ++ R) = false := not_lpre_append _ _ R (by decide)
    have h3 : (hidOpen (("Examples").toList)).isPrefixOf
        (visOpen (("Examples").toList) ++ R) = true := key R
    simp only [fieldNames, List.find?, h1, h2, h3]

/-- At the start of a hidden opening marker, the hidden-form search
captures that field. -/
theorem find?_hidOpen_hid (f R : List Char) (hf : f ∈ fieldNames) :
    fieldNames.find? (fun g => (hidOpen g).isPrefixOf (hidOpen f ++ R)) = some f := by
  rcases fieldNames_mem f hf with h | h | h
  · subst h
    have h1 : (hidOpen (("Short").toList)).isPrefixOf
        (hidOpen (("Short").toList) ++ R) = true := lpre_append_self _ R
    simp only [fieldNames, List.find?, h1]
  · subst h
    have h1 : (hidOpen (("Short").toList)).isPrefixOf
        (hidOpen (("Long").toList) ++ R) = false := not_lpre_append _ _ R (by decide)
    have h2 : (hidOpen (("Long").toList)).isPrefixOf
        (hidOpen (("Long").toList) ++ R) = true := lpre_append_self _ R
    simp only [fieldNames, List.find?, h1, h2]
  · subst h
    have h1 : (hidOpen (("Short").toList)).isPrefixOf
        (hidOpen (("Examples").toList) ++ R) = false := not_lpre_append _ _ R (by decide)
    have h2 : (hidOpen (("Long").toList)).isPrefixOf
        (hidOpen (("Examples").toList) ++ R) = false := not_lpre_append _ _ R (by decide)
    have h3 : (hidOpen (("Examples").toList)).isPrefixOf
        (hidOpen (("Examples").toList) ++ R) = true := lpre_append_self _ R
    simp only [fieldNames, List.find?, h1, h2, h3]

/-- The hidden-form scanner skips a visible opening marker: the character
after the field name is `-`, not whitespace. -/
theorem scanHidden_at_visOpen (f R : List Char) (hf : f ∈ fieldNames) :
    scanHidden (visOpen f ++ R) = scanHidden R := by
  have hs : visOpen f ++ R ≠ [] := by
    rw [visOpen_cons f]
    simp
  rw [scanHidden_eq_of_ne_nil _ hs, find?_hidOpen_vis f R hf]
  have hdrop : (visOpen f ++ R).drop (hidOpen f).length = arrow ++ R := by
    rw [visOpen_hid, List.append_assoc, List.drop_left]
  simp only [hdrop, arrow_cons, List.cons_append, List.head?_cons, List.tail_cons,
    show regexSpace '-' = false from rfl, Bool.false_eq_true, if_false]
  have ht : (visOpen f ++ R).tail =
      ("!--mdtogo:").toList ++ (f ++ (("-->").toList ++ R)) := by
    rw [visOpen_cons f, List.cons_append, List.tail_cons, List.append_assoc,
      List.append_assoc]
  rw [ht, scanHidden_skip_append _ _ (by decide),
    scanHidden_skip_append _ _ (fieldNames_no_lt f hf),
    scanHidden_skip_append _ _ (by decide)]

/-- The hidden-form scanner skips a closing marker. -/
theorem scanHidden_at_close (b : List Char) :
    scanHidden (closeTag ++ b) = scanHidden b := by
  have hs : closeTag ++ b ≠ [] := by
    rw [closeTag_cons]
    simp
  have hnone : fieldNames.find? (fun g => (hidOpen g).isPrefixOf (closeTag ++ b)) = none := by
    rw [List.find?_eq_none]
    intro g hg
    rcases fieldNames_mem g hg with h | h | h
    all_goals subst h
    all_goals rw [not_lpre_append _ _ b (by decide)]
    all_goals simp
  rw [scanHidden_eq_of_ne_nil _ hs, hnone]
  have ht : (closeTag ++ b).tail = ("!--mdtogo-->").toList ++ b := by
    rw [closeTag_cons, List.cons_append, List.tail_cons]
  rw [ht, scanHidden_skip_append _ _ (by decide)]

/-- The visible-form scanner skips a hidden opening marker: the visible
opening would require `-->` right after the field name, but a whitespace
character follows. -/
theorem scanVisible_at_hidOpen (f : List Char) (hf : f ∈ fieldNames)
    (c : Char) (hc : regexSpace c = true) (R : List Char) :
    scanVisible (hidOpen f ++ (c :: R)) = scanVisible R := by
  have hs : hidOpen f ++ (c :: R) ≠ [] := by
    rw [hidOpen_cons f]
    simp
  have hnone : fieldNames.find?
      (fun g => (visOpen g).isPrefixOf (hidOpen f ++ (c :: R))) = none := by
    rw [List.find?_eq_none]
    intro g hg
    by_cases hgf : g = f
    · subst hgf
      rw [visOpen_hid, lpre_cancel, arrow_cons,
        lpre_cons_false '-' _ c R (Ne.symm (regexSpace_ne c hc).1)]
      simp
    · rcases fieldNames_mem g hg with h | h | h <;>
        rcases fieldNames_mem f hf with h' | h' | h'
      all_goals subst h
      all_goals subst h'
      all_goals first
      | exact absurd rfl hgf
      | · rw [not_lpre_append _ _ _ (by decide)]
          simp
  rw [scanVisible_eq_of_ne_nil _ hs, hnone]
  have ht : (hidOpen f ++ (c :: R)).tail =
      ("!--mdtogo:").toList ++ (f ++ (c :: R)) := by
    rw [hidOpen_cons f, List.cons_append, List.tail_cons, List.append_assoc]
  rw [ht, scanVisible_skip_append _ _ (by decide),
    scanVisible_skip_append _ _ (fieldNames_no_lt f hf),
    scanVisible_skip c R (Ne.symm (regexSpace_ne c hc).2).symm]

/-- The hidden-form scanner at a well-formed hidden region: one
whitespace character after the field name, then content up to the
nearest closing arrow. -/
theorem scanHidden_at_hidden (f : List Char) (hf : f ∈ fieldNames)
    (c : Char) (hc : regexSpace c = true) (C R : List Char)
    (hC : ∀ a ∈ C, a ≠ '-') :
    scanHidden (hidOpen f ++ (c :: (C ++ (arrow ++ R)))) =
      (f, C) :: scanHidden R := by
  have hs : hidOpen f ++ (c :: (C ++ (arrow ++ R))) ≠ [] := by
    rw [hidOpen_cons f]
    simp
  rw [scanHidden_eq_of_ne_nil _ hs, find?_hidOpen_hid f _ hf]
  simp only [List.drop_left, List.head?_cons, List.tail_cons]
  rw [hc]
  simp only [if_true]
  rw [findIdx?_arrow C R hC]
  simp only [List.take_left]
  have hd : (C ++ (arrow ++ R)).drop (C.length + arrow.length) = R := by
    rw [← List.append_assoc, ← List.length_append, List.drop_left]
  rw [hd]


/-! ### Character provenance through the normalizer -/

theorem mem_trimChars (p : Char → Bool) (s : List Char) (c : Char)
    (h : c ∈ trimChars p s) : c ∈ s := by
  unfold trimChars at h
  rw [List.mem_reverse] at h
  have h1 := (List.dropWhile_sublist p).subset h
  rw [List.mem_reverse] at h1
  exact (List.dropWhile_sublist p).subset h1

theorem mem_dropCR (l : List Char) (c : Char) (h : c ∈ dropCR l) : c ∈ l := by
  unfold dropCR at h
  split at h
  · exact (List.dropLast_sublist l).subset h
  · exact h

theorem mem_scanLinesAcc (s : List Char) : ∀ (acc ll : List Char),
    ll ∈ scanLinesAcc acc s → ∀ c ∈ ll, c ∈ acc ∨ c ∈ s := by
  induction s with
  | nil =>
    intro acc ll h c hc
    simp only [scanLinesAcc] at h
    split at h
    · cases h
    · rw [List.mem_singleton] at h
      subst h
      left
      have := mem_dropCR _ _ hc
      rwa [List.mem_reverse] at this
  | cons a rest ih =>
    intro acc ll h c hc
    simp only [scanLinesAcc] at h
    split at h
    · rcases List.mem_cons.mp h with h1 | h1
      · subst h1
        have := mem_dropCR _ _ hc
        rw [List.mem_reverse] at this
        exact Or.inl this
      · rcases ih [] ll h1 c hc with h2 | h2
        · cases h2
        · right
          simp [h2]
    · rcases ih (a :: acc) ll h c hc with h2 | h2
      · rcases List.mem_cons.mp h2 with h3 | h3
        · subst h3
          right
          simp
        · exact Or.inl h3
      · right
        simp [h2]

theorem mem_scanLines (s ll : List Char) (hl : ll ∈ scanLines s) (c : Char)
    (hc : c ∈ ll) : c ∈ s := by
  rcases mem_scanLinesAcc s [] ll hl c hc with h | h
  · cases h
  · exact h

theorem mem_escapeLine (l : List Char) (c : Char) (h : c ∈ escapeLine l) :
    c ∈ l ∨ c ∈ escSeq := by
  induction l with
  | nil => cases h
  | cons a rest ih =>
    simp only [escapeLine] at h
    split at h
    · rcases List.mem_append.mp h with h1 | h1
      · exact Or.inr h1
      · rcases ih h1 with h2 | h2
        · exact Or.inl (List.mem_cons_of_mem a h2)
        · exact Or.inr h2
    · rcases List.mem_cons.mp h with h1 | h1
      · exact Or.inl (h1 ▸ List.mem_cons_self a rest)
      · rcases ih h1 with h2 | h2
        · exact Or.inl (List.mem_cons_of_mem a h2)
        · exact Or.inr h2

theorem mem_cleanLines (b : Bool) (L : List (List Char)) (ll : List Char)
    (hl : ll ∈ cleanLines b L) (c : Char) (hc : c ∈ ll) :
    (∃ l ∈ L, c ∈ l) ∨ c = ' ' ∨ c ∈ escSeq := by
  induction L generalizing b with
  | nil => cases hl
  | cons l ls ih =>
    simp only [cleanLines] at hl
    split at hl
    · rcases ih (!b) hl with ⟨l', hl', hc'⟩ | h | h
      · exact Or.inl ⟨l', List.mem_cons_of_mem l hl', hc'⟩
      · exact Or.inr (Or.inl h)
      · exact Or.inr (Or.inr h)
    · rcases List.mem_cons.mp hl with h1 | h1
      · subst h1
        rcases mem_escapeLine _ c hc with h2 | h2
        · split at h2
          · rcases List.mem_cons.mp h2 with h3 | h3
            · exact Or.inr (Or.inl h3)
            · rcases List.mem_cons.mp h3 with h4 | h4
              · exact Or.inr (Or.inl h4)
              · exact Or.inl ⟨l, List.mem_cons_self l ls, h4⟩
          · exact Or.inl ⟨l, List.mem_cons_self l ls, h2⟩
        · exact Or.inr (Or.inr h2)
      · rcases ih b h1 with ⟨l', hl', hc'⟩ | h | h
        · exact Or.inl ⟨l', List.mem_cons_of_mem l hl', hc'⟩
        · exact Or.inr (Or.inl h)
        · exact Or.inr (Or.inr h)

theorem mem_joinLines (L : List (List Char)) (c : Char) (h : c ∈ joinLines L) :
    c = '
' ∨ ∃ l ∈ L, c ∈ l := by
  induction L with
  | nil => cases h
  | cons l ls ih =>
    cases ls with
    | nil =>
      right
      exact ⟨l, List.mem_cons_self l [], h⟩
    | cons l' ls' =>
      rw [joinLines] at h
      rcases List.mem_append.mp h with h1 | h1
      · exact Or.inr ⟨l, List.mem_cons_self _ _, h1⟩
      · rcases List.mem_cons.mp h1 with h2 | h2
        · exact Or.inl h2
        · rcases ih h2 with h3 | ⟨m, hm, hc⟩
          · exact Or.inl h3
          · exact Or.inr ⟨m, List.mem_cons_of_mem l hm, hc⟩

theorem mem_cleanUpContent (t : List Char) (c : Char)
    (h : c ∈ cleanUpContent t) : c ∈ t ∨ c = '
' ∨ c = ' ' ∨ c ∈ escSeq := by
  unfold cleanUpContent at h
  rcases List.mem_cons.mp h with h1 | h1
  · exact Or.inr (Or.inl h1)
  rcases List.mem_append.mp h1 with h2 | h2
  · rcases mem_joinLines _ c h2 with h3 | ⟨l, hl, hc⟩
    · exact Or.inr (Or.inl h3)
    · rcases mem_cleanLines false _ l hl c hc with ⟨m, hm, hc'⟩ | h4 | h4
      · exact Or.inl (mem_trimChars _ t c (mem_scanLines _ m hm c hc'))
      · exact Or.inr (Or.inr (Or.inl h4))
      · exact Or.inr (Or.inr (Or.inr h4))
  · rw [List.mem_singleton] at h2
    exact Or.inr (Or.inl h2)

theorem occursIn_false_of_not_mem (pat s : List Char) (c : Char)
    (hc : c ∈ pat) (hs : c ∉ s) : occursIn pat s = false := by
  by_contra h
  rw [Bool.not_eq_false] at h
  exact hs (occursIn_subset pat s h c hc)


theorem not_lt_trimSpace (C : List Char) (hC : ∀ c ∈ C, c ≠ '<') :
    '<' ∉ trimSpace C := by
  intro hmem
  exact hC '<' (mem_trimChars _ C _ hmem) rfl

theorem not_lt_cleanUpContent (C : List Char) (hC : ∀ c ∈ C, c ≠ '<') :
    '<' ∉ cleanUpContent C := by
  intro hmem
  rcases mem_cleanUpContent C '<' hmem with h | h | h | h
  · exact hC '<' h rfl
  · exact absurd h (by decide)
  · exact absurd h (by decide)
  · exact absurd h (by decide)

/-- The scanners over a text consisting of marker-free context around a
single well-formed visible region. -/
theorem scans_single_visible (a C b f : List Char) (hf : f ∈ fieldNames)
    (ha : ∀ c ∈ a, c ≠ '<') (hC : ∀ c ∈ C, c ≠ '<') (hb : ∀ c ∈ b, c ≠ '<') :
    scanVisible (a ++ (visOpen f ++ (C ++ (closeTag ++ b)))) = [(f, C)] ∧
    scanHidden (a ++ (visOpen f ++ (C ++ (closeTag ++ b)))) = [] := by
  constructor
  · rw [scanVisible_skip_append a _ ha, scanVisible_at_open f C b hf hC,
      scanVisible_of_no_lt b hb]
  · rw [scanHidden_skip_append a _ ha, scanHidden_at_visOpen f _ hf,
      scanHidden_skip_append C _ hC, scanHidden_at_close b,
      scanHidden_of_no_lt b hb]

/-- C1: for every file text containing a well-formed visible-form region
`<!--mdtogo:F-->C<!--mdtogo-->` (well-formedness rendered as: the
content and the surrounding text contain no marker-start character `<`),
`parse` stores `TrimSpace(C)` when `F` is `Short` and
`cleanUpContent(C)` when `F` is `Long` or `Examples`, and neither the
opening nor the closing marker occurs in the stored value. -/
theorem parse_visible_region (nm a C b f : List Char) (hf : f ∈ fieldNames)
    (ha : ∀ c ∈ a, c ≠ '<') (hC : ∀ c ∈ C, c ≠ '<') (hb : ∀ c ∈ b, c ≠ '<') :
    fieldGet (parse nm (a ++ (visOpen f ++ (C ++ (closeTag ++ b))))) f =
      (if f = ("Short").toList then trimSpace C else cleanUpContent C) ∧
    occursIn (visOpen f)
      (fieldGet (parse nm (a ++ (visOpen f ++ (C ++ (closeTag ++ b))))) f) = false ∧
    occursIn closeTag
      (fieldGet (parse nm (a ++ (visOpen f ++ (C ++ (closeTag ++ b))))) f) = false := by
  obtain ⟨hv, hh⟩ := scans_single_visible a C b f hf ha hC hb
  have hdoc : parse nm (a ++ (visOpen f ++ (C ++ (closeTag ++ b)))) =
      { applyMatch emptyDoc (f, C) with Name := nm } := by
    simp only [parse, hv, hh, List.append_nil, List.foldl_cons, List.foldl_nil]
  rw [hdoc]
  have hlt : '<' ∈ visOpen f := by
    rw [visOpen_cons]
    exact List.mem_cons_self _ _
  have hltc : '<' ∈ closeTag := by decide
  rcases fieldNames_mem f hf with h | h | h
  all_goals subst h
  · have hval : fieldGet { applyMatch emptyDoc ((("Short").toList), C) with Name := nm }
        (("Short").toList) = trimSpace C := by
      simp [applyMatch, fieldGet, emptyDoc]
    rw [hval]
    refine ⟨by simp, ?_, ?_⟩
    · exact occursIn_false_of_not_mem _ _ '<' hlt (not_lt_trimSpace C hC)
    · exact occursIn_false_of_not_mem _ _ '<' hltc (not_lt_trimSpace C hC)
  · have hne1 : ("Long").toList ≠ ("Short").toList := by decide
    have hval : fieldGet { applyMatch emptyDoc ((("Long").toList), C) with Name := nm }
        (("Long").toList) = cleanUpContent C := by
      simp [applyMatch, fieldGet, emptyDoc, hne1]
    rw [hval]
    refine ⟨by simp [hne1], ?_, ?_⟩
    · exact occursIn_false_of_not_mem _ _ '<' hlt (not_lt_cleanUpContent C hC)
    · exact occursIn_false_of_not_mem _ _ '<' hltc (not_lt_cleanUpContent C hC)
  · have hne1 : ("Examples").toList ≠ ("Short").toList := by decide
    have hne2 : ("Examples").toList ≠ ("Long").toList := by decide
    have hval : fieldGet { applyMatch emptyDoc ((("Examples").toList), C) with Name := nm }
        (("Examples").toList) = cleanUpContent C := by
      simp [applyMatch, fieldGet, emptyDoc, hne1, hne2]
    rw [hval]
    refine ⟨by simp [hne1], ?_, ?_⟩
    · exact occursIn_false_of_not_mem _ _ '<' hlt (not_lt_cleanUpContent C hC)
    · exact occursIn_false_of_not_mem _ _ '<' hltc (not_lt_cleanUpContent C hC)

/-- Witness for C1 at a concrete input: a `Long` region surrounded by
plain text. -/
theorem parse_visible_region_witness :
    fieldGet (parse (("Guides").toList) c1text) (("Long").toList) =
      (if ("Long").toList = ("Short").toList then trimSpace ((" body ").toList)
       else cleanUpContent ((" body ").toList)) ∧
    occursIn (visOpen (("Long").toList))
      (fieldGet (parse (("Guides").toList) c1text) (("Long").toList)) = false ∧
    occursIn closeTag
      (fieldGet (parse (("Guides").toList) c1text) (("Long").toList)) = false :=
  parse_visible_region (("Guides").toList) (("intro ").toList) ((" body ").toList)
    (("outro").toList) (("Long").toList) (by decide) (by decide) (by decide) (by decide)


/-- C4: when several regions target the same field, the last one in
processing order wins, where all visible-form matches (in text order)
precede all hidden-form matches (in text order).  First conjunct: with
two visible regions for the same field, the second region's content is
stored.  Second conjunct: a hidden `Long` region is processed after a
visible `Long` region even when it occurs earlier in the text, so its
content wins. -/
theorem parse_last_match_wins
    (nm a C1 m C2 b f : List Char) (hf : f ∈ fieldNames)
    (ha : ∀ x ∈ a, x ≠ '<') (hC1 : ∀ x ∈ C1, x ≠ '<')
    (hm : ∀ x ∈ m, x ≠ '<') (hC2 : ∀ x ∈ C2, x ≠ '<') (hb : ∀ x ∈ b, x ≠ '<')
    (c : Char) (hc : regexSpace c = true) (hC1d : ∀ x ∈ C1, x ≠ '-') :
    fieldGet (parse nm (a ++ (visOpen f ++ (C1 ++ (closeTag ++
        (m ++ (visOpen f ++ (C2 ++ (closeTag ++ b))))))))) f =
      (if f = ("Short").toList then trimSpace C2 else cleanUpContent C2) ∧
    (parse nm (a ++ (hidOpen (("Long").toList) ++ (c :: (C1 ++ (arrow ++
        (m ++ (visOpen (("Long").toList) ++ (C2 ++ (closeTag ++ b)))))))))).Long =
      cleanUpContent C1 := by
  have hLmem : ("Long").toList ∈ fieldNames := by decide
  constructor
  · have hv : scanVisible (a ++ (visOpen f ++ (C1 ++ (closeTag ++
        (m ++ (visOpen f ++ (C2 ++ (closeTag ++ b)))))))) = [(f, C1), (f, C2)] := by
      rw [scanVisible_skip_append a _ ha, scanVisible_at_open f C1 _ hf hC1,
        scanVisible_skip_append m _ hm, scanVisible_at_open f C2 b hf hC2,
        scanVisible_of_no_lt b hb]
    have hh : scanHidden (a ++ (visOpen f ++ (C1 ++ (closeTag ++
        (m ++ (visOpen f ++ (C2 ++ (closeTag ++ b)))))))) = [] := by
      rw [scanHidden_skip_append a _ ha, scanHidden_at_visOpen f _ hf,
        scanHidden_skip_append C1 _ hC1, scanHidden_at_close,
        scanHidden_skip_append m _ hm, scanHidden_at_visOpen f _ hf,
        scanHidden_skip_append C2 _ hC2, scanHidden_at_close,
        scanHidden_of_no_lt b hb]
    have hdoc : parse nm (a ++ (visOpen f ++ (C1 ++ (closeTag ++
        (m ++ (visOpen f ++ (C2 ++ (closeTag ++ b)))))))) =
        { applyMatch (applyMatch emptyDoc (f, C1)) (f, C2) with Name := nm } := by
      simp only [parse, hv, hh, List.append_nil, List.foldl_cons, List.foldl_nil]
    rw [hdoc]
    rcases fieldNames_mem f hf with h | h | h
    all_goals subst h
    · simp [applyMatch, fieldGet, emptyDoc]
    · have hne1 : ("Long").toList ≠ ("Short").toList := by decide
      simp [applyMatch, fieldGet, emptyDoc, hne1]
    · have hne1 : ("Examples").toList ≠ ("Short").toList := by decide
      have hne2 : ("Examples").toList ≠ ("Long").toList := by decide
      simp [applyMatch, fieldGet, emptyDoc, hne1, hne2]
  · have hv : scanVisible (a ++ (hidOpen (("Long").toList) ++ (c :: (C1 ++ (arrow ++
        (m ++ (visOpen (("Long").toList) ++ (C2 ++ (closeTag ++ b))))))))) =
        [((("Long").toList), C2)] := by
      rw [scanVisible_skip_append a _ ha,
        scanVisible_at_hidOpen (("Long").toList) hLmem c hc,
        scanVisible_skip_append C1 _ hC1,
        scanVisible_skip_append arrow _ (by decide),
        scanVisible_skip_append m _ hm,
        scanVisible_at_open (("Long").toList) C2 b hLmem hC2,
        scanVisible_of_no_lt b hb]
    have hh : scanHidden (a ++ (hidOpen (("Long").toList) ++ (c :: (C1 ++ (arrow ++
        (m ++ (visOpen (("Long").toList) ++ (C2 ++ (closeTag ++ b))))))))) =
        [((("Long").toList), C1)] := by
      rw [scanHidden_skip_append a _ ha,
        scanHidden_at_hidden (("Long").toList) hLmem c hc C1 _ hC1d,
        scanHidden_skip_append m _ hm,
        scanHidden_at_visOpen (("Long").toList) _ hLmem,
        scanHidden_skip_append C2 _ hC2, scanHidden_at_close,
        scanHidden_of_no_lt b hb]
    have hdoc : parse nm (a ++ (hidOpen (("Long").toList) ++ (c :: (C1 ++ (arrow ++
        (m ++ (visOpen (("Long").toList) ++ (C2 ++ (closeTag ++ b))))))))) =
        { applyMatch (applyMatch emptyDoc ((("Long").toList), C2))
            ((("Long").toList), C1) with Name := nm } := by
      simp only [parse, hv, hh, List.foldl_cons, List.foldl_nil, List.cons_append,
        List.nil_append]
    rw [hdoc]
    have hne1 : ("Long").toList ≠ ("Short").toList := by decide
    simp [applyMatch, emptyDoc, hne1]

/-- Witness for C4 at concrete inputs. -/
theorem parse_last_match_wins_witness :
    fieldGet (parse (("Guides").toList) c4visText) (("Long").toList) =
      (if ("Long").toList = ("Short").toList then trimSpace (("two").toList)
       else cleanUpContent (("two").toList)) ∧
    (parse (("Guides").toList) c4hidText).Long = cleanUpContent (("one").toList) := by
  have h := parse_last_match_wins (("Guides").toList) (("A").toList) (("one").toList)
    (("M").toList) (("two").toList) (("B").toList) (("Long").toList) (by decide)
    (by decide) (by decide) (by decide) (by decide) (by decide) ' ' (by decide) (by decide)
  exact h


/-! ### The emitter -/

/-- C7: `doc.String` emits exactly one `var <Name><Suffix>` declaration
per non-empty field — a part is in the emitted list iff the
corresponding field is non-empty and the part is that field's
declaration — and the output is those declarations joined by newlines
plus a trailing newline. -/
theorem docString_decls (d : Doc) :
    (∀ p, p ∈ docParts d ↔
      ((d.Short ≠ [] ∧ p = varDecl d.Name (("Short").toList) d.Short) ∨
       (d.Long ≠ [] ∧ p = varDecl d.Name (("Long").toList) d.Long) ∨
       (d.Examples ≠ [] ∧ p = varDecl d.Name (("Examples").toList) d.Examples))) ∧
    docString d = joinLines (docParts d) ++ ['\n'] := by
  refine ⟨fun p => ?_, rfl⟩
  unfold docParts
  by_cases h1 : d.Short = [] <;> by_cases h2 : d.Long = [] <;>
    by_cases h3 : d.Examples = [] <;> simp [h1, h2, h3]

/-! ### Fences and escaping inside `cleanLines` -/

theorem fenceMark_eq : fenceMark = [backquote, backquote, backquote] := by decide

theorem escapeLine_sp (l : List Char) :
    escapeLine (' ' :: ' ' :: l) = ' ' :: ' ' :: escapeLine l := by
  have h : ¬(' ' = backquote) := by decide
  simp [escapeLine, h]

theorem not_fence_escapeLine (m : List Char) :
    fenceMark.isPrefixOf (escapeLine m) = false := by
  cases m with
  | nil => decide
  | cons c rest =>
    simp only [escapeLine]
    split
    next hc =>
      exact not_lpre_append fenceMark escSeq _ (by decide)
    next hc =>
      rw [fenceMark_eq]
      exact lpre_cons_false backquote _ c _ (fun h => hc h.symm)

theorem not_fence_sp (x : List Char) :
    fenceMark.isPrefixOf (' ' :: ' ' :: x) = false := by
  rw [fenceMark_eq]
  exact lpre_cons_false backquote _ ' ' _ (by decide)

theorem cleanLines_no_fence (L : List (List Char)) : ∀ (b : Bool),
    ∀ l ∈ cleanLines b L, fenceMark.isPrefixOf l = false := by
  induction L with
  | nil =>
    intro b l hl
    cases hl
  | cons m ms ih =>
    intro b l hl
    simp only [cleanLines] at hl
    split at hl
    · exact ih (!b) l hl
    · rcases List.mem_cons.mp hl with h1 | h1
      · subst h1
        cases b with
        | false => exact not_fence_escapeLine m
        | true =>
          rw [if_pos rfl, escapeLine_sp]
          exact not_fence_sp _
      · exact ih b l h1

/-- C10: fence detection is prefix-based — any line whose first three
characters are backquotes toggles the indentation state of the
`cleanLines` loop and is dropped whole, whatever follows the three
backquotes, and no fence-prefixed line ever appears in the output. -/
theorem fence_prefix_toggle (rest : List Char) (ls : List (List Char)) (b : Bool) :
    cleanLines b ((backquote :: backquote :: backquote :: rest) :: ls) =
      cleanLines (!b) ls ∧
    ∀ l ∈ cleanLines b ((backquote :: backquote :: backquote :: rest) :: ls),
      fenceMark.isPrefixOf l = false := by
  have hshape : backquote :: backquote :: backquote :: rest = fenceMark ++ rest := by
    rw [fenceMark_eq]
    rfl
  have hfence : fenceMark.isPrefixOf
      (backquote :: backquote :: backquote :: rest) = true := by
    rw [hshape]
    exact lpre_append_self _ _
  refine ⟨?_, fun l hl => cleanLines_no_fence _ b l hl⟩
  simp only [cleanLines, hfence, if_true]


theorem cleanLines_false_append (pre X : List (List Char))
    (hpre : ∀ l ∈ pre, fenceMark.isPrefixOf l = false) :
    cleanLines false (pre ++ X) = pre.map escapeLine ++ cleanLines false X := by
  induction pre with
  | nil => rfl
  | cons l pre ih =>
    rw [List.cons_append]
    simp only [cleanLines, hpre l (List.mem_cons_self l pre), Bool.false_eq_true,
      if_false, List.map_cons, List.cons_append]
    rw [ih (fun a ha => hpre a (List.mem_cons_of_mem l ha))]

theorem cleanLines_true_append (mid X : List (List Char))
    (hmid : ∀ l ∈ mid, fenceMark.isPrefixOf l = false) :
    cleanLines true (mid ++ X) =
      mid.map (fun l => ' ' :: ' ' :: escapeLine l) ++ cleanLines true X := by
  induction mid with
  | nil => rfl
  | cons l mid ih =>
    rw [List.cons_append]
    simp only [cleanLines, hmid l (List.mem_cons_self l mid), Bool.false_eq_true,
      if_false, if_true, List.map_cons, List.cons_append, escapeLine_sp]
    rw [ih (fun a ha => hmid a (List.mem_cons_of_mem l ha))]

/-- C2: when the lines of the (trimmed) input decompose around a fence
pair, every line strictly between the open and close fence appears in
the output with exactly two spaces prepended (and backquote-escaped, as
all output lines are), the fence lines themselves are dropped, lines
before the pair pass through unindented, and processing continues after
the pair; moreover no fence-prefixed line occurs anywhere in the
output. -/
theorem cleanUpContent_fence_pairs (text : List Char)
    (pre mid post : List (List Char)) (f₁ f₂ : List Char)
    (hsplit : scanLines (trimNL text) = pre ++ f₁ :: (mid ++ f₂ :: post))
    (hpre : ∀ l ∈ pre, fenceMark.isPrefixOf l = false)
    (hmid : ∀ l ∈ mid, fenceMark.isPrefixOf l = false)
    (hf₁ : fenceMark.isPrefixOf f₁ = true)
    (hf₂ : fenceMark.isPrefixOf f₂ = true) :
    cleanUpContent text =
      '\n' :: (joinLines (pre.map escapeLine ++
        (mid.map (fun l => ' ' :: ' ' :: escapeLine l) ++
          cleanLines false post)) ++ ['\n']) ∧
    ∀ l ∈ cleanLines false (scanLines (trimNL text)),
      fenceMark.isPrefixOf l = false := by
  refine ⟨?_, fun l hl => cleanLines_no_fence _ false l hl⟩
  unfold cleanUpContent
  rw [hsplit, cleanLines_false_append pre _ hpre]
  simp only [cleanLines, hf₁, if_true, Bool.not_false]
  rw [cleanLines_true_append mid _ hmid]
  simp only [cleanLines, hf₂, if_true, Bool.not_true]

/-- Witness for C2 at the concrete input `"a\n```\nx\n```\nb"`. -/
theorem cleanUpContent_fence_pairs_witness :
    cleanUpContent c2text =
      '\n' :: (joinLines ([("a").toList].map escapeLine ++
        ([("x").toList].map (fun l => ' ' :: ' ' :: escapeLine l) ++
          cleanLines false [("b").toList])) ++ ['\n']) ∧
    ∀ l ∈ cleanLines false (scanLines (trimNL c2text)),
      fenceMark.isPrefixOf l = false :=
  cleanUpContent_fence_pairs c2text [("a").toList] [("x").toList] [("b").toList]
    (("```").toList) (("```").toList) (by decide) (by decide) (by decide)
    (by decide) (by decide)


/-! ### Backquote escaping -/

theorem safe_append (u v : List Char) (hu : EscapedSafe u) (hv : EscapedSafe v) :
    EscapedSafe (u ++ v) := by
  induction hu with
  | nil => simpa using hv
  | cons c s hc _ ih => exact EscapedSafe.cons c (s ++ v) hc ih
  | esc s _ ih =>
    rw [List.append_assoc]
    exact EscapedSafe.esc (s ++ v) ih

theorem safe_escapeLine (m : List Char) : EscapedSafe (escapeLine m) := by
  induction m with
  | nil => exact EscapedSafe.nil
  | cons c rest ih =>
    simp only [escapeLine]
    split
    next hc => exact EscapedSafe.esc _ ih
    next hc => exact EscapedSafe.cons c _ hc ih

theorem safe_joinLines (L : List (List Char)) (hL : ∀ l ∈ L, EscapedSafe l) :
    EscapedSafe (joinLines L) := by
  induction L with
  | nil => exact EscapedSafe.nil
  | cons l ls ih =>
    cases ls with
    | nil => exact hL l (List.mem_cons_self l [])
    | cons l' ls' =>
      rw [joinLines]
      refine safe_append _ _ (hL l (List.mem_cons_self _ _)) ?_
      refine EscapedSafe.cons '\n' _ (by decide) ?_
      exact ih (fun a ha => hL a (List.mem_cons_of_mem l ha))

theorem safe_cleanLines (L : List (List Char)) : ∀ (b : Bool),
    ∀ l ∈ cleanLines b L, EscapedSafe l := by
  induction L with
  | nil =>
    intro b l hl
    cases hl
  | cons m ms ih =>
    intro b l hl
    simp only [cleanLines] at hl
    split at hl
    · exact ih (!b) l hl
    · rcases List.mem_cons.mp hl with h1 | h1
      · subst h1
        exact safe_escapeLine _
      · exact ih b l h1

/-- C3: every backquote in the output of `cleanUpContent` is part of an
inserted escape sequence: the output is generated from non-backquote
characters and whole `escSeq` blocks. -/
theorem cleanUpContent_backquotes_escaped (text : List Char)
    (h : backquote ∈ text) : EscapedSafe (cleanUpContent text) := by
  unfold cleanUpContent
  refine EscapedSafe.cons '\n' _ (by decide) ?_
  refine safe_append _ _ ?_ ?_
  · exact safe_joinLines _ (fun l hl => safe_cleanLines _ false l hl)
  · exact EscapedSafe.cons '\n' [] (by decide) EscapedSafe.nil

/-- Witness for C3 at a concrete input containing a backquote. -/
theorem cleanUpContent_backquotes_escaped_witness :
    EscapedSafe (cleanUpContent (("x `y` z").toList)) :=
  cleanUpContent_backquotes_escaped (("x `y` z").toList) (by decide)


/-! ### Trimming of outer newlines -/

theorem head?_dropWhile_false (p : Char → Bool) (l : List Char) (a : Char)
    (h : (l.dropWhile p).head? = some a) : p a = false := by
  induction l with
  | nil => cases h
  | cons c rest ih =>
    rw [List.dropWhile_cons] at h
    split at h
    · exact ih h
    next hpc =>
      rw [List.head?_cons, Option.some.injEq] at h
      subst h
      simpa using hpc

theorem trimChars_decomp (p : Char → Bool) (s : List Char)
    (hp : ∀ c, p c = true ↔ c = '\n') :
    (∃ k m : Nat, s = List.replicate k '\n' ++ (trimChars p s ++ List.replicate m '\n')) ∧
    (∀ c, (trimChars p s).head? = some c → p c = false) ∧
    (∀ c, (trimChars p s).getLast? = some c → p c = false) := by
  have hA : s.takeWhile p ++ s.dropWhile p = s := List.takeWhile_append_dropWhile p s
  have hrep1 : s.takeWhile p = List.replicate (s.takeWhile p).length '\n' := by
    rw [List.eq_replicate_iff]
    exact ⟨rfl, fun b hb => (hp b).mp (List.mem_takeWhile_imp hb)⟩
  have hB : (s.dropWhile p).reverse.takeWhile p ++ (s.dropWhile p).reverse.dropWhile p =
      (s.dropWhile p).reverse := List.takeWhile_append_dropWhile p _
  have hrep2 : (s.dropWhile p).reverse.takeWhile p =
      List.replicate ((s.dropWhile p).reverse.takeWhile p).length '\n' := by
    rw [List.eq_replicate_iff]
    exact ⟨rfl, fun b hb => (hp b).mp (List.mem_takeWhile_imp hb)⟩
  have hrev2 : ((s.dropWhile p).reverse.takeWhile p).reverse =
      List.replicate ((s.dropWhile p).reverse.takeWhile p).length '\n' := by
    conv_lhs => rw [hrep2]
    rw [List.reverse_replicate]
  have ht1 : s.dropWhile p =
      trimChars p s ++ List.replicate ((s.dropWhile p).reverse.takeWhile p).length '\n' := by
    calc s.dropWhile p = ((s.dropWhile p).reverse).reverse := (List.reverse_reverse _).symm
      _ = ((s.dropWhile p).reverse.takeWhile p ++ (s.dropWhile p).reverse.dropWhile p).reverse := by
          rw [hB]
      _ = ((s.dropWhile p).reverse.dropWhile p).reverse ++
            ((s.dropWhile p).reverse.takeWhile p).reverse := by
          rw [List.reverse_append]
      _ = trimChars p s ++
            List.replicate ((s.dropWhile p).reverse.takeWhile p).length '\n' := by
          rw [hrev2]
          rfl
  refine ⟨⟨(s.takeWhile p).length, ((s.dropWhile p).reverse.takeWhile p).length, ?_⟩, ?_, ?_⟩
  · conv_lhs => rw [← hA, ht1]
    rw [← hrep1]
  · intro c hc
    have hne : trimChars p s ≠ [] := by
      intro he
      rw [he] at hc
      cases hc
    have hh : (s.dropWhile p).head? = some c := by
      rw [ht1]
      cases htr : trimChars p s with
      | nil => exact absurd htr hne
      | cons a t =>
        rw [htr] at hc
        rw [List.cons_append, List.head?_cons, ← hc, List.head?_cons]
    exact head?_dropWhile_false p s c hh
  · intro c hc
    have hh : ((s.dropWhile p).reverse.dropWhile p).head? = some c := by
      have : (((s.dropWhile p).reverse.dropWhile p).reverse).getLast? = some c := hc
      rwa [List.getLast?_reverse] at this
    exact head?_dropWhile_false p _ c hh

/-- C5: `cleanUpContent` removes exactly the leading and trailing
newline characters (i.e. the leading and trailing blank lines) of its
input before line-by-line processing — the input splits as newlines ++
trimmed core ++ newlines, and the core neither starts nor ends with a
newline — and the returned text is the processed lines joined and
wrapped in exactly one leading and one trailing newline. -/
theorem cleanUpContent_trim_and_wrap (text : List Char) :
    (∃ k m : Nat, text =
      List.replicate k '\n' ++ (trimNL text ++ List.replicate m '\n')) ∧
    (∀ c, (trimNL text).head? = some c → c ≠ '\n') ∧
    (∀ c, (trimNL text).getLast? = some c → c ≠ '\n') ∧
    cleanUpContent text =
      '\n' :: (joinLines (cleanLines false (scanLines (trimNL text))) ++ ['\n']) := by
  have hp : ∀ c : Char, isNLChar c = true ↔ c = '\n' := by
    intro c
    simp [isNLChar]
  obtain ⟨h1, h2, h3⟩ := trimChars_decomp isNLChar text hp
  refine ⟨h1, ?_, ?_, rfl⟩
  · intro c hc hcn
    have := h2 c hc
    rw [hcn] at this
    rw [(hp '\n').mpr rfl] at this
    cases this
  · intro c hc hcn
    have := h3 c hc
    rw [hcn] at this
    rw [(hp '\n').mpr rfl] at this
    cases this


/-! ### Structure of the line scanner -/

theorem scanLinesAcc_break (l : List Char) : ∀ (acc r : List Char), '\n' ∉ l →
    scanLinesAcc acc (l ++ '\n' :: r) = dropCR (acc.reverse ++ l) :: scanLinesAcc [] r := by
  induction l with
  | nil =>
    intro acc r _
    simp [scanLinesAcc]
  | cons c l ih =>
    intro acc r hl
    have hc : ¬(c = '\n') := fun h => hl (h ▸ List.mem_cons_self c l)
    rw [List.cons_append]
    simp only [scanLinesAcc, hc, if_false]
    rw [ih (c :: acc) r (fun h => hl (List.mem_cons_of_mem c h))]
    simp [List.append_assoc]

theorem scanLinesAcc_last (l : List Char) : ∀ (acc : List Char), '\n' ∉ l →
    scanLinesAcc acc l =
      if acc.reverse ++ l = [] then [] else [dropCR (acc.reverse ++ l)] := by
  induction l with
  | nil =>
    intro acc _
    by_cases h : acc = []
    · simp [scanLinesAcc, h]
    · have : acc.reverse ≠ [] := fun he => h (by simpa using congrArg List.reverse he)
      simp [scanLinesAcc, h, this]
  | cons c l ih =>
    intro acc hl
    have hc : ¬(c = '\n') := fun h => hl (h ▸ List.mem_cons_self c l)
    simp only [scanLinesAcc, hc, if_false]
    rw [ih (c :: acc) (fun h => hl (List.mem_cons_of_mem c h))]
    simp [List.append_assoc]

theorem scanLines_split (l r : List Char) (hl : '\n' ∉ l) :
    scanLines (l ++ '\n' :: r) = dropCR l :: scanLines r := by
  unfold scanLines
  rw [scanLinesAcc_break l [] r hl]
  simp

theorem scanLines_single (l : List Char) (hl : '\n' ∉ l) (hne : l ≠ []) :
    scanLines l = [dropCR l] := by
  unfold scanLines
  rw [scanLinesAcc_last l [] hl]
  simp [hne]

theorem scanLinesAcc_eq_nil (s : List Char) : ∀ (acc : List Char),
    scanLinesAcc acc s = [] → acc = [] ∧ s = [] := by
  induction s with
  | nil =>
    intro acc h
    simp only [scanLinesAcc] at h
    split at h
    · exact ⟨by assumption, rfl⟩
    · cases h
  | cons c rest ih =>
    intro acc h
    simp only [scanLinesAcc] at h
    split at h
    · cases h
    · exact absurd (ih (c :: acc) h).1 (by simp)

theorem scanLines_ne_nil (s : List Char) (hs : s ≠ []) : scanLines s ≠ [] := by
  intro h
  exact hs (scanLinesAcc_eq_nil s [] h).2

theorem joinLines_cons (l : List Char) (X : List (List Char)) (hX : X ≠ []) :
    joinLines (l :: X) = l ++ '\n' :: joinLines X := by
  cases X with
  | nil => exact absurd rfl hX
  | cons x xs => rfl

/-! ### Carriage-return-free texts -/

theorem crClean_tail (c : Char) (rest : List Char)
    (h : crClean (c :: rest) = true) : crClean rest = true := by
  cases rest with
  | nil => rfl
  | cons c' r =>
    simp only [crClean] at h
    split at h
    · cases h
    · exact h

theorem crClean_suffix (x r : List Char) (h : crClean (x ++ r) = true) :
    crClean r = true := by
  induction x with
  | nil => exact h
  | cons c x ih => exact ih (crClean_tail c _ h)

theorem crClean_last (s : List Char) (h : crClean s = true) :
    s.getLast? ≠ some '\r' := by
  induction s with
  | nil => simp
  | cons c rest ih =>
    cases rest with
    | nil =>
      simp only [crClean] at h
      intro he
      simp only [List.getLast?_singleton, Option.some.injEq] at he
      subst he
      simp at h
    | cons c' r =>
      rw [List.getLast?_cons_cons]
      exact ih (crClean_tail c _ h)

theorem crClean_before_nl (l : List Char) : ∀ (r : List Char),
    crClean (l ++ '\n' :: r) = true → l.getLast? ≠ some '\r' := by
  induction l with
  | nil =>
    intro r _
    simp
  | cons c l ih =>
    intro r h
    cases l with
    | nil =>
      simp only [List.nil_append, List.cons_append, crClean] at h
      split at h
      · cases h
      next hc =>
        intro he
        simp only [List.getLast?_singleton, Option.some.injEq] at he
        exact hc ⟨he, trivial⟩
    | cons c' l' =>
      rw [List.getLast?_cons_cons]
      refine ih r ?_
      rw [List.cons_append] at h
      exact crClean_tail c _ h

theorem crClean_append_nl (l : List Char) : ∀ (r : List Char),
    crClean (l ++ '\n' :: r) = true → crClean l = true := by
  induction l with
  | nil =>
    intro r _
    rfl
  | cons c l ih =>
    intro r h
    cases l with
    | nil =>
      simp only [List.nil_append, List.cons_append, crClean] at h ⊢
      split at h
      · cases h
      next hc =>
        simp only [Bool.not_eq_true']
        rw [decide_eq_false_iff_not]
        exact fun he => hc ⟨he, trivial⟩
    | cons c' l' =>
      rw [List.cons_append] at h
      have h1 := ih r (crClean_tail c _ h)
      simp only [crClean] at h ⊢
      split at h
      · cases h
      next hc =>
        rw [if_neg hc]
        exact h1

theorem dropCR_eq_self (l : List Char) (h : l.getLast? ≠ some '\r') :
    dropCR l = l := by
  unfold dropCR
  rw [if_neg h]

theorem crClean_trimNL (s : List Char) (h : crClean s = true) :
    crClean (trimNL s) = true := by
  have hp : ∀ c : Char, isNLChar c = true ↔ c = '\n' := by
    intro c
    simp [isNLChar]
  obtain ⟨⟨k, m, hkm⟩, _, _⟩ := trimChars_decomp isNLChar s hp
  have h1 : crClean (trimNL s ++ List.replicate m '\n') = true := by
    have := hkm ▸ h
    exact crClean_suffix _ _ this
  cases m with
  | zero =>
    simpa using h1
  | succ m =>
    rw [List.replicate_succ] at h1
    exact crClean_append_nl _ _ h1


theorem exists_split_first (a : Char) (s : List Char) (h : a ∈ s) :
    ∃ l r, s = l ++ a :: r ∧ a ∉ l := by
  induction s with
  | nil => cases h
  | cons c rest ih =>
    by_cases hc : c = a
    · subst hc
      exact ⟨[], rest, rfl, by simp⟩
    · have hm : a ∈ rest := by
        rcases List.mem_cons.mp h with h1 | h1
        · exact absurd h1.symm hc
        · exact h1
      obtain ⟨l, r, hlr, hnl⟩ := ih hm
      refine ⟨c :: l, r, by rw [hlr, List.cons_append], ?_⟩
      intro hmem
      rcases List.mem_cons.mp hmem with h1 | h1
      · exact hc h1.symm
      · exact hnl h1

theorem joinLines_scanLines_aux (n : Nat) : ∀ (s : List Char), s.length ≤ n →
    crClean s = true → (∀ c, s.getLast? = some c → c ≠ '\n') →
    joinLines (scanLines s) = s := by
  induction n with
  | zero =>
    intro s hlen _ _
    have : s = [] := List.length_eq_zero.mp (Nat.le_zero.mp hlen)
    subst this
    rfl
  | succ n ih =>
    intro s hlen hcr hlast
    by_cases hnl : '\n' ∈ s
    · obtain ⟨l, r, hs, hl⟩ := exists_split_first '\n' s hnl
      subst hs
      have hdrop : dropCR l = l :=
        dropCR_eq_self l (crClean_before_nl l r hcr)
      have hr : r ≠ [] := by
        intro he
        subst he
        exact hlast '\n' (List.getLast?_concat l) rfl
      have hrlen : r.length ≤ n := by
        have := congrArg List.length (rfl : l ++ '\n' :: r = l ++ '\n' :: r)
        have hlen2 : (l ++ '\n' :: r).length = l.length + 1 + r.length := by
          simp [List.length_append]
          omega
        omega
      have hrcr : crClean r = true := by
        have : l ++ '\n' :: r = (l ++ ['\n']) ++ r := by
          rw [List.append_assoc]
          rfl
        rw [this] at hcr
        exact crClean_suffix _ _ hcr
      have hrlast : ∀ c, r.getLast? = some c → c ≠ '\n' := by
        intro c hc
        refine hlast c ?_
        rw [List.getLast?_append_of_ne_nil l ?_]
        · rw [← hc]
          cases r with
          | nil => exact absurd rfl hr
          | cons x xs => rfl
        · simp
      rw [scanLines_split l r hl, hdrop,
        joinLines_cons l _ (scanLines_ne_nil r hr), ih r hrlen hrcr hrlast]
    · by_cases hse : s = []
      · subst hse
        rfl
      · rw [scanLines_single s hnl hse, dropCR_eq_self s (crClean_last s hcr)]
        rfl

theorem joinLines_scanLines (s : List Char) (hcr : crClean s = true)
    (hlast : ∀ c, s.getLast? = some c → c ≠ '\n') :
    joinLines (scanLines s) = s :=
  joinLines_scanLines_aux s.length s (Nat.le_refl _) hcr hlast

theorem escapeLine_id (l : List Char) (h : backquote ∉ l) : escapeLine l = l := by
  induction l with
  | nil => rfl
  | cons c rest ih =>
    have hc : ¬(c = backquote) := fun he => h (he ▸ List.mem_cons_self c rest)
    simp only [escapeLine, hc, if_false]
    rw [ih (fun hm => h (List.mem_cons_of_mem c hm))]

theorem cleanLines_id (L : List (List Char))
    (hfence : ∀ l ∈ L, fenceMark.isPrefixOf l = false)
    (hbq : ∀ l ∈ L, backquote ∉ l) :
    cleanLines false L = L := by
  have h1 : cleanLines false (L ++ []) = L.map escapeLine ++ cleanLines false [] :=
    cleanLines_false_append L [] hfence
  rw [List.append_nil] at h1
  rw [h1]
  simp only [cleanLines, List.append_nil]
  rw [List.map_congr_left (fun a ha => escapeLine_id a (hbq a ha))]
  simp

theorem dropWhile_eq_self_of_head (p : Char → Bool) (l : List Char)
    (h : ∀ c, l.head? = some c → p c = false) : l.dropWhile p = l := by
  cases l with
  | nil => rfl
  | cons c rest =>
    rw [List.dropWhile_cons, if_neg]
    rw [h c rfl]
    simp

theorem trimNL_wrap (T : List Char)
    (hhead : ∀ c, T.head? = some c → c ≠ '\n')
    (hlast : ∀ c, T.getLast? = some c → c ≠ '\n') :
    trimNL ('\n' :: (T ++ ['\n'])) = T := by
  unfold trimNL trimChars
  have h1 : ('\n' :: (T ++ ['\n'])).dropWhile isNLChar = (T ++ ['\n']).dropWhile isNLChar := by
    rw [List.dropWhile_cons, if_pos]
    rw [show isNLChar '\n' = true from rfl]
  rw [h1]
  cases T with
  | nil => rfl
  | cons t0 T' =>
    have h2 : ((t0 :: T') ++ ['\n']).dropWhile isNLChar = (t0 :: T') ++ ['\n'] := by
      refine dropWhile_eq_self_of_head isNLChar _ ?_
      intro c hc
      rw [List.cons_append, List.head?_cons, Option.some.injEq] at hc
      have := hhead t0 rfl
      rw [← hc]
      simp [isNLChar, this]
    rw [h2]
    have h3 : ((t0 :: T') ++ ['\n']).reverse = '\n' :: (t0 :: T').reverse := by
      rw [List.reverse_append]
      rfl
    rw [h3, List.dropWhile_cons, if_pos (by rw [show isNLChar '\n' = true from rfl])]
    have h4 : (t0 :: T').reverse.dropWhile isNLChar = (t0 :: T').reverse := by
      refine dropWhile_eq_self_of_head isNLChar _ ?_
      intro c hc
      rw [List.head?_reverse] at hc
      have := hlast c hc
      simp [isNLChar, this]
    rw [h4, List.reverse_reverse]


/-- C6 (amended: additionally assuming no line of the input ends in a
carriage return, since the scanner silently drops such a `\r`):
on fence-free, backquote-free input, `cleanUpContent` returns the input
with leading/trailing newlines trimmed, wrapped in exactly one leading
and one trailing newline, and applying it again returns that output
unchanged. -/
theorem cleanUpContent_idempotent (text : List Char)
    (hfence : ∀ l ∈ scanLines (trimNL text), fenceMark.isPrefixOf l = false)
    (hbq : backquote ∉ text)
    (hcr : crClean text = true) :
    cleanUpContent text = '\n' :: (trimNL text ++ ['\n']) ∧
    cleanUpContent (cleanUpContent text) = cleanUpContent text := by
  have hp : ∀ c : Char, isNLChar c = true ↔ c = '\n' := fun c => by simp [isNLChar]
  obtain ⟨_, hhead, hlast⟩ := trimChars_decomp isNLChar text hp
  have hhead' : ∀ c, (trimNL text).head? = some c → c ≠ '\n' := by
    intro c hc hne
    have h := hhead c hc
    rw [hne, (hp '\n').mpr rfl] at h
    cases h
  have hlast' : ∀ c, (trimNL text).getLast? = some c → c ≠ '\n' := by
    intro c hc hne
    have h := hlast c hc
    rw [hne, (hp '\n').mpr rfl] at h
    cases h
  have hbqT : ∀ l ∈ scanLines (trimNL text), backquote ∉ l := by
    intro l hl hm
    exact hbq (mem_trimChars _ text _ (mem_scanLines _ l hl backquote hm))
  have hid : cleanLines false (scanLines (trimNL text)) = scanLines (trimNL text) :=
    cleanLines_id _ hfence hbqT
  have hcrT : crClean (trimNL text) = true := crClean_trimNL text hcr
  have hjoin : joinLines (scanLines (trimNL text)) = trimNL text :=
    joinLines_scanLines _ hcrT hlast'
  have h1 : cleanUpContent text = '\n' :: (trimNL text ++ ['\n']) := by
    unfold cleanUpContent
    rw [hid, hjoin]
  refine ⟨h1, ?_⟩
  rw [h1]
  have htrim2 : trimNL ('\n' :: (trimNL text ++ ['\n'])) = trimNL text :=
    trimNL_wrap _ hhead' hlast'
  calc cleanUpContent ('\n' :: (trimNL text ++ ['\n']))
      = '\n' :: (joinLines (cleanLines false (scanLines
          (trimNL ('\n' :: (trimNL text ++ ['\n']))))) ++ ['\n']) := rfl
    _ = '\n' :: (trimNL text ++ ['\n']) := by rw [htrim2, hid, hjoin]

/-- Witness for the amended C6 at a concrete fence-free, backquote-free,
carriage-return-free input. -/
theorem cleanUpContent_idempotent_witness :
    cleanUpContent (("hi\nworld").toList) =
      '\n' :: (trimNL (("hi\nworld").toList) ++ ['\n']) ∧
    cleanUpContent (cleanUpContent (("hi\nworld").toList)) =
      cleanUpContent (("hi\nworld").toList) :=
  cleanUpContent_idempotent (("hi\nworld").toList) (by decide) (by decide) (by decide)

/-- Counterexample to C6 as stated: the input `"a\r\nb"` contains no
fence-delimiter line and no backquote, yet `cleanUpContent` does not
return the trimmed input wrapped in newlines — the `\r` before the
newline is dropped by the line scanner. -/
theorem cleanUpContent_idempotent_counterexample :
    (∀ l ∈ scanLines (trimNL (("a\r\nb").toList)), fenceMark.isPrefixOf l = false) ∧
    backquote ∉ (("a\r\nb").toList) ∧
    cleanUpContent (("a\r\nb").toList) ≠
      '\n' :: (trimNL (("a\r\nb").toList) ++ ['\n']) := by
  refine ⟨by decide, by decide, by decide⟩


/-! ### Argument handling and the write phase -/

/-- Counterexample to C8 as stated: invoked with two flag arguments and
no positional arguments at all, the program does not print usage — the
`len(os.Args) < 3` check counts the flags, and they are then used as
source and destination. -/
theorem mainArgs_usage_counterexample :
    (positionalArgs [("mdtogo").toList, ("--recursive=true").toList,
      ("--license=none").toList]).length < 2 ∧
    mainArgs [("mdtogo").toList, ("--recursive=true").toList,
      ("--license=none").toList] ≠ ArgOutcome.usage := by
  constructor
  · decide
  · intro h
    simp [mainArgs] at h

/-- C8 amended: the usage message and exit code 1 happen exactly when
the total argument count — program name and flag arguments included —
is below three; the check precedes all file reads and writes, but flag
arguments count toward the threshold, so missing positional arguments
alone do not trigger it. -/
theorem mainArgs_usage_iff (args : List (List Char)) :
    mainArgs args = ArgOutcome.usage ↔ args.length < 3 := by
  unfold mainArgs
  split
  next h => simp [h]
  next h => simp [h]

/-- Counterexample to C9 as stated: with working directory `[]` existing
and destination `out/sub` whose parent `out` does not exist, the
destination does not exist at write time, yet the run fails — `os.Mkdir`
cannot create nested directories and its error is discarded, so the
subsequent write fails and the process exits 1. -/
theorem writePhase_counterexample :
    ([("out").toList, ("sub").toList] : FsPath) ∉ (Fs.mk [([] : FsPath)] []).dirs ∧
    (writePhase (Fs.mk [([] : FsPath)] []) [("out").toList, ("sub").toList]).2 = false := by
  refine ⟨by decide, by decide⟩

/-- C9 amended: when the destination directory is missing but its parent
directory exists and no file or directory occupies the destination path
or the output path, the directory is created silently, the output file
`dest/docs.go` is written, and the write phase succeeds (exit 0). -/
theorem writePhase_creates_missing_dest (fs : Fs) (dest : FsPath)
    (hd : dest ∉ fs.dirs) (hf : dest ∉ fs.files)
    (hp : parentDir dest ∈ fs.dirs)
    (hnd : dest ++ [("docs.go").toList] ∉ fs.dirs) :
    dest ∈ (writePhase fs dest).1.dirs ∧
    dest ++ [("docs.go").toList] ∈ (writePhase fs dest).1.files ∧
    (writePhase fs dest).2 = true := by
  have hstat : statOk fs dest = false := by
    simp [statOk, hd, hf]
  have hmk : mkdirFs fs dest = ({ fs with dirs := dest :: fs.dirs }, true) := by
    simp [mkdirFs, hp, hd, hf]
  have hparent : parentDir (dest ++ [("docs.go").toList]) = dest := by
    simp [parentDir]
  have hptr : dest ++ [("docs.go").toList] ∉ dest :: fs.dirs := by
    intro hmem
    rcases List.mem_cons.mp hmem with h1 | h1
    · have := congrArg List.length h1
      simp at this
    · exact hnd h1
  simp only [writePhase, hstat, Bool.false_eq_true, if_false, hmk, writeFileFs,
    hparent]
  rw [if_pos ⟨List.mem_cons_self _ _, hptr⟩]
  refine ⟨List.mem_cons_self _ _, ?_, rfl⟩
  split
  next hmem => exact hmem
  next hmem => exact List.mem_cons_self _ _

/-- Witness for the amended C9 at a concrete state: empty working
directory, destination `out`. -/
theorem writePhase_creates_missing_dest_witness :
    ([("out").toList] : FsPath) ∈
      (writePhase (Fs.mk [([] : FsPath)] []) [("out").toList]).1.dirs ∧
    [("out").toList] ++ [("docs.go").toList] ∈
      (writePhase (Fs.mk [([] : FsPath)] []) [("out").toList]).1.files ∧
    (writePhase (Fs.mk [([] : FsPath)] []) [("out").toList]).2 = true :=
  writePhase_creates_missing_dest (Fs.mk [([] : FsPath)] []) [("out").toList]
    (by decide) (by decide) (by decide) (by decide)

end Mdtogo
